import Mathlib

/-!
Verification of the mskvfs FUSE filesystem (msk-mind fork of minfs).

This file gives a shallow embedding, in Lean, of the cache-evictor,
cache-path allocation, directory-scan and file-open logic of the Go
sources, and proves (or refutes) the specification claims about them.

Modelling conventions:
* Go `float64` size accounting is modelled by `ℚ` (the spec itself says
  precision loss is irrelevant, the comparisons are coarse).
* `time.Time` values are modelled by `ℤ` (`Before`/`After` become `<`/`>`).
* Go machine integers: `os.FileMode` and `uint64` sizes are `ℕ`
  (with the `uint64(int64)` conversion made explicit, mod `2^64`),
  `int64` object sizes are `ℤ`.
* The on-disk cache directory is modelled by the list of entries a
  `filepath.Walk` visits, in visit order; the open-fd registry
  `mfs.openfds` by the list of its cache-path values; the BoltDB bucket
  of a directory by an association list.
* The evictor run `DeleteUntilQuota` is sequential in the source except
  that the registry may change between the per-item checks (it is read
  under `mfs.m` separately for each item); the embedding therefore takes
  the registry as a function of the check index.
-/

namespace Mskvfs

/-! ### Cache items and the cache-directory walk (`DirSize`, part_002 lines 28-58) -/

/-- One cached file as seen by the evictor: absolute path, size in
gigabytes, and modification time. -/
structure CacheItem where
  Path : String
  Size : ℚ
  ModTime : ℤ
  deriving DecidableEq

/-- The ordering used by `sort.Slice` in `DirSize`: ascending `ModTime`. -/
def itemLe (a b : CacheItem) : Prop := a.ModTime ≤ b.ModTime

instance : DecidableRel itemLe :=
  fun a b => inferInstanceAs (Decidable (a.ModTime ≤ b.ModTime))

instance : IsTotal CacheItem itemLe :=
  ⟨fun a b => Int.le_total a.ModTime b.ModTime⟩

instance : IsTrans CacheItem itemLe :=
  ⟨fun _ _ _ h1 h2 => le_trans h1 h2⟩

/-- `filepath.Ext`: the suffix of the final slash-separated element
starting at its final dot, or `""` when there is no dot.  Implemented on
the reversed character list, exactly following the Go scan from the end
of the string. -/
def goExtRev : List Char → List Char → List Char
  | [], _ => []
  | c :: cs, acc =>
    if c = '/' then []
    else if c = '.' then '.' :: acc
    else goExtRev cs (c :: acc)

def goExt (s : String) : String := ⟨goExtRev s.data.reverse []⟩

/-- `float64(info.Size()) / math.Pow(1024.0, 3.0)`. -/
def sizeGB (n : ℕ) : ℚ := (n : ℚ) / (1024 : ℚ) ^ 3

/-- One entry the `filepath.Walk` callback sees: the path handed to the
callback, the `FileInfo` data, and the error argument (`none` = no
error). -/
structure WalkEntry where
  path : String
  isDir : Bool
  sizeB : ℕ
  mtime : ℤ
  errW : Option ℕ
  deriving DecidableEq

/-- The accumulation performed by the walk callback of `DirSize`:
errors abort the walk (entries already collected are kept, the error is
returned); non-directory entries with extension `.fcache` are collected
and their sizes summed. -/
def walkCollect : List WalkEntry → List CacheItem × ℚ × Option ℕ
  | [] => ([], 0, none)
  | e :: rest =>
    match e.errW with
    | some code => ([], 0, some code)
    | none =>
      if !e.isDir && goExt e.path == ".fcache" then
        let r := walkCollect rest
        (⟨e.path, sizeGB e.sizeB, e.mtime⟩ :: r.1, sizeGB e.sizeB + r.2.1, r.2.2)
      else
        walkCollect rest

/-- `DirSize` (part_002 lines 35-58): walk, then sort ascending by
`ModTime` (`sort.Slice` with `Before`), returning items, total size and
the walk error. -/
def dirSizeGo (entries : List WalkEntry) : List CacheItem × ℚ × Option ℕ :=
  let r := walkCollect entries
  (List.insertionSort itemLe r.1, r.2.1, r.2.2)

/-! ### The evictor pass (`DeleteUntilQuota`, part_002 lines 61-94) -/

/-- The scan of `mfs.openfds` values: `used = used || (cachePath == item.Path)`. -/
def itemUsed (openfds : List String) (p : String) : Bool :=
  openfds.any (fun cachePath => cachePath == p)

/-- Result of one `DeleteUntilQuota` run: the items the loop reached
(lock taken, registry checked), the removal events `(check index, item)`
performed by `os.Remove`, and the final remaining overage. -/
structure DUQResult where
  processed : List CacheItem
  removed : List (ℕ × CacheItem)
  finalQ : ℚ
  deriving DecidableEq

/-- `DeleteUntilQuota` (part_002 lines 61-94).  For each item in order:
take the keyed lock, read the registry snapshot for this check
(`regAt i`), and when the item is unused remove it and subtract its size
from the remaining overage `q`; after unlocking, break once `q < 0`. -/
def deleteUntilQuota (regAt : ℕ → List String) : ℕ → List CacheItem → ℚ → DUQResult
  | _, [], q => ⟨[], [], q⟩
  | i, item :: rest, q =>
    let used := itemUsed (regAt i) item.Path
    let q1 := if used then q else q - item.Size
    let rem0 : List (ℕ × CacheItem) := if used then [] else [(i, item)]
    if q1 < 0 then ⟨[item], rem0, q1⟩
    else
      let r := deleteUntilQuota regAt (i + 1) rest q1
      ⟨item :: r.processed, rem0 ++ r.removed, r.finalQ⟩

/-- One tick of `MonitorCache` (part_002 lines 97-119) with configured
quota `quota` (`MAX_SIZE := float64(mfs.config.quota)`): walk the cache
directory; on a walk error skip the tick; when the total is within quota
do nothing; otherwise run `DeleteUntilQuota` with overage
`size - MAX_SIZE`. -/
def monitorTick (quota : ℤ) (regAt : ℕ → List String) (entries : List WalkEntry) : DUQResult :=
  let r := dirSizeGo entries
  if r.2.2.isSome then ⟨[], [], 0⟩
  else if r.2.1 ≤ (quota : ℚ) then ⟨[], [], 0⟩
  else deleteUntilQuota regAt 0 r.1 (r.2.1 - (quota : ℚ))

/-- Overage left after a list of items has been examined with registry
`reg`: the sizes of the unused ones have been subtracted. -/
def overAfter (reg : List String) (q : ℚ) (l : List CacheItem) : ℚ :=
  q - ((l.filter (fun it => !itemUsed reg it.Path)).map (fun it => it.Size)).sum

lemma overAfter_nil (reg : List String) (q : ℚ) : overAfter reg q [] = q := by
  simp [overAfter]

lemma overAfter_cons (reg : List String) (q : ℚ) (a : CacheItem) (l : List CacheItem) :
    overAfter reg q (a :: l)
      = overAfter reg (if itemUsed reg a.Path then q else q - a.Size) l := by
  by_cases h : itemUsed reg a.Path
  · simp [overAfter, List.filter_cons, h]
  · simp [overAfter, List.filter_cons, h]
    ring

lemma duq_cons_break (regAt : ℕ → List String) (i : ℕ) (a : CacheItem)
    (rest : List CacheItem) (q : ℚ)
    (h : (if itemUsed (regAt i) a.Path then q else q - a.Size) < 0) :
    deleteUntilQuota regAt i (a :: rest) q
      = ⟨[a], if itemUsed (regAt i) a.Path then [] else [(i, a)],
         if itemUsed (regAt i) a.Path then q else q - a.Size⟩ := by
  simp only [deleteUntilQuota]
  rw [if_pos h]

lemma duq_cons_go (regAt : ℕ → List String) (i : ℕ) (a : CacheItem)
    (rest : List CacheItem) (q : ℚ)
    (h : ¬ (if itemUsed (regAt i) a.Path then q else q - a.Size) < 0) :
    deleteUntilQuota regAt i (a :: rest) q
      = ⟨a :: (deleteUntilQuota regAt (i + 1) rest
               (if itemUsed (regAt i) a.Path then q else q - a.Size)).processed,
         (if itemUsed (regAt i) a.Path then [] else [(i, a)])
           ++ (deleteUntilQuota regAt (i + 1) rest
               (if itemUsed (regAt i) a.Path then q else q - a.Size)).removed,
         (deleteUntilQuota regAt (i + 1) rest
               (if itemUsed (regAt i) a.Path then q else q - a.Size)).finalQ⟩ := by
  simp only [deleteUntilQuota]
  rw [if_neg h]

lemma duq_removed_unused (regAt : ℕ → List String) :
    ∀ (items : List CacheItem) (q : ℚ) (i0 : ℕ) (j : ℕ) (it : CacheItem),
      (j, it) ∈ (deleteUntilQuota regAt i0 items q).removed →
      itemUsed (regAt j) it.Path = false := by
  intro items
  induction items with
  | nil =>
    intro q i0 j it h
    simp [deleteUntilQuota] at h
  | cons a rest ih =>
    intro q i0 j it h
    by_cases hq : (if itemUsed (regAt i0) a.Path then q else q - a.Size) < 0
    · rw [duq_cons_break regAt i0 a rest q hq] at h
      by_cases hu : itemUsed (regAt i0) a.Path
      · simp [hu] at h
      · simp [hu] at h
        obtain ⟨hj, hit⟩ := h
        subst hj; subst hit
        exact Bool.eq_false_iff.2 (fun hc => hu hc)
    · rw [duq_cons_go regAt i0 a rest q hq] at h
      simp only [List.mem_append] at h
      rcases h with h | h
      · by_cases hu : itemUsed (regAt i0) a.Path
        · simp [hu] at h
        · simp [hu] at h
          obtain ⟨hj, hit⟩ := h
          subst hj; subst hit
          exact Bool.eq_false_iff.2 (fun hc => hu hc)
      · exact ih _ _ _ _ h

/-- C1: during an evictor pass (`DeleteUntilQuota`), an item whose path
is present in the open-fd registry at the moment of that item's registry
check is not removed; consequently a path that is referenced by a live
handle at every check of the pass never appears among the removed
files. -/
theorem evictor_never_removes_in_use (regAt : ℕ → List String)
    (items : List CacheItem) (q : ℚ) (i0 : ℕ) :
    (∀ j it, (j, it) ∈ (deleteUntilQuota regAt i0 items q).removed →
       itemUsed (regAt j) it.Path = false) ∧
    (∀ p : String, (∀ j, itemUsed (regAt j) p = true) →
       p ∉ (deleteUntilQuota regAt i0 items q).removed.map (fun e => e.2.Path)) := by
  constructor
  · exact fun j it h => duq_removed_unused regAt items q i0 j it h
  · intro p hall hp
    rcases List.mem_map.1 hp with ⟨⟨j, it⟩, hmem, hpath⟩
    have hfalse := duq_removed_unused regAt items q i0 j it hmem
    rw [hpath, hall j] at hfalse
    exact Bool.noConfusion hfalse

theorem evictor_never_removes_in_use_witness :
    itemUsed ["cp"] "cp" = true ∧
    "cp" ∉ ((deleteUntilQuota (fun _ => ["cp"]) 0 [⟨"cp", 1, 0⟩] 5).removed.map
      (fun e => e.2.Path)) := by
  refine ⟨by decide,
    (evictor_never_removes_in_use (fun _ => ["cp"]) [⟨"cp", 1, 0⟩] 5 0).2 "cp"
      (fun j => ?_)⟩
  decide

lemma duq_char_aux (reg : List String) :
    ∀ (items : List CacheItem) (q : ℚ) (i0 : ℕ),
      ∃ n, n ≤ items.length ∧
        (deleteUntilQuota (fun _ => reg) i0 items q).processed = items.take n ∧
        (deleteUntilQuota (fun _ => reg) i0 items q).removed.map Prod.snd
          = (items.take n).filter (fun it => !itemUsed reg it.Path) ∧
        (deleteUntilQuota (fun _ => reg) i0 items q).finalQ = overAfter reg q (items.take n) ∧
        (∀ k, k + 1 < n → 0 ≤ overAfter reg q (items.take (k + 1))) ∧
        (n < items.length → overAfter reg q (items.take n) < 0) := by
  intro items
  induction items with
  | nil =>
    intro q i0
    refine ⟨0, by simp, by simp [deleteUntilQuota], by simp [deleteUntilQuota],
      by simp [deleteUntilQuota, overAfter], by simp, by simp⟩
  | cons a rest ih =>
    intro q i0
    by_cases hu : itemUsed reg a.Path
    · have hover : ∀ m : ℕ, overAfter reg q ((a :: rest).take (m + 1))
          = overAfter reg q (rest.take m) := by
        intro m
        rw [List.take_succ_cons, overAfter_cons, if_pos hu]
      have hover1 : overAfter reg q ((a :: rest).take 1) = q := by
        rw [hover 0, List.take_zero, overAfter_nil]
      by_cases hq : q < 0
      · have hq' : (if itemUsed reg a.Path then q else q - a.Size) < 0 := by
          rw [if_pos hu]; exact hq
        refine ⟨1, ?_, ?_, ?_, ?_, ?_, ?_⟩
        · simp only [List.length_cons]; omega
        · rw [duq_cons_break (fun _ => reg) i0 a rest q hq']; simp
        · rw [duq_cons_break (fun _ => reg) i0 a rest q hq']
          simp [hu, List.filter_cons]
        · rw [duq_cons_break (fun _ => reg) i0 a rest q hq', hover1]
          simp [hu]
        · intro k hk; omega
        · intro _; rw [hover1]; exact hq
      · have hq' : ¬ (if itemUsed reg a.Path then q else q - a.Size) < 0 := by
          rw [if_pos hu]; exact hq
        obtain ⟨n, hn, hproc, hrem, hfin, hc1, hc2⟩ := ih q (i0 + 1)
        refine ⟨n + 1, ?_, ?_, ?_, ?_, ?_, ?_⟩
        · simp only [List.length_cons]; omega
        · rw [duq_cons_go (fun _ => reg) i0 a rest q hq', if_pos hu]
          simp only [DUQResult.mk.injEq]  -- field access on the explicit constructor
          rw [List.take_succ_cons, hproc]
        · rw [duq_cons_go (fun _ => reg) i0 a rest q hq', if_pos hu]
          show ((if itemUsed reg a.Path then ([] : List (ℕ × CacheItem)) else [(i0, a)])
              ++ _).map Prod.snd = _
          rw [if_pos hu, List.take_succ_cons, List.filter_cons]
          simp [hu, hrem]
        · rw [duq_cons_go (fun _ => reg) i0 a rest q hq', if_pos hu]
          show (deleteUntilQuota (fun _ => reg) (i0 + 1) rest q).finalQ = _
          rw [hfin, List.take_succ_cons, overAfter_cons, if_pos hu]
        · intro k hk
          match k with
          | 0 => rw [hover1]; exact not_lt.1 hq
          | Nat.succ j =>
            rw [hover]
            exact hc1 j (by omega)
        · intro hlt
          rw [hover]
          exact hc2 (by simp only [List.length_cons] at hlt; omega)
    · have hover : ∀ m : ℕ, overAfter reg q ((a :: rest).take (m + 1))
          = overAfter reg (q - a.Size) (rest.take m) := by
        intro m
        rw [List.take_succ_cons, overAfter_cons, if_neg hu]
      have hover1 : overAfter reg q ((a :: rest).take 1) = q - a.Size := by
        rw [hover 0, List.take_zero, overAfter_nil]
      by_cases hq : q - a.Size < 0
      · have hq' : (if itemUsed reg a.Path then q else q - a.Size) < 0 := by
          rw [if_neg hu]; exact hq
        refine ⟨1, ?_, ?_, ?_, ?_, ?_, ?_⟩
        · simp only [List.length_cons]; omega
        · rw [duq_cons_break (fun _ => reg) i0 a rest q hq']; simp
        · rw [duq_cons_break (fun _ => reg) i0 a rest q hq']
          simp [hu, List.filter_cons]
        · rw [duq_cons_break (fun _ => reg) i0 a rest q hq', hover1]
          simp [hu]
        · intro k hk; omega
        · intro _; rw [hover1]; exact hq
      · have hq' : ¬ (if itemUsed reg a.Path then q else q - a.Size) < 0 := by
          rw [if_neg hu]; exact hq
        obtain ⟨n, hn, hproc, hrem, hfin, hc1, hc2⟩ := ih (q - a.Size) (i0 + 1)
        refine ⟨n + 1, ?_, ?_, ?_, ?_, ?_, ?_⟩
        · simp only [List.length_cons]; omega
        · rw [duq_cons_go (fun _ => reg) i0 a rest q hq', if_neg hu]
          simp only [DUQResult.mk.injEq]
          rw [List.take_succ_cons, hproc]
        · rw [duq_cons_go (fun _ => reg) i0 a rest q hq', if_neg hu]
          show ((if itemUsed reg a.Path then ([] : List (ℕ × CacheItem)) else [(i0, a)])
              ++ _).map Prod.snd = _
          rw [if_neg hu, List.take_succ_cons, List.filter_cons]
          simp [hu, hrem]
        · rw [duq_cons_go (fun _ => reg) i0 a rest q hq', if_neg hu]
          show (deleteUntilQuota (fun _ => reg) (i0 + 1) rest (q - a.Size)).finalQ = _
          rw [hfin, List.take_succ_cons, overAfter_cons, if_neg hu]
        · intro k hk
          match k with
          | 0 => rw [hover1]; exact not_lt.1 hq
          | Nat.succ j =>
            rw [hover]
            exact hc1 j (by omega)
        · intro hlt
          rw [hover]
          exact hc2 (by simp only [List.length_cons] at hlt; omega)

/-- C5: characterisation of the evictor pass `DeleteUntilQuota` run with
registry snapshot `reg`: the loop examines exactly a prefix `take n` of
its (oldest-first) input, removes exactly the unused items of that
prefix (in order; in-use items are skipped), the final overage is the
initial overage minus the sizes of the removed items only, the loop
never continued past a point where the running overage had dropped below
zero, and it stopped early only because the overage had dropped below
zero.  When the input is sorted by modification time the removals happen
in oldest-first order. -/
theorem deleteUntilQuota_char (reg : List String) (items : List CacheItem) (q : ℚ)
    (i0 : ℕ) (hs : List.Sorted itemLe items) :
    ∃ n, n ≤ items.length ∧
      (deleteUntilQuota (fun _ => reg) i0 items q).processed = items.take n ∧
      (deleteUntilQuota (fun _ => reg) i0 items q).removed.map Prod.snd
        = (items.take n).filter (fun it => !itemUsed reg it.Path) ∧
      (deleteUntilQuota (fun _ => reg) i0 items q).finalQ
        = q - (((deleteUntilQuota (fun _ => reg) i0 items q).removed.map Prod.snd).map
            (fun it => it.Size)).sum ∧
      List.Sorted itemLe ((deleteUntilQuota (fun _ => reg) i0 items q).removed.map Prod.snd) ∧
      (∀ k, k + 1 < n → 0 ≤ overAfter reg q (items.take (k + 1))) ∧
      (n < items.length → overAfter reg q (items.take n) < 0) := by
  obtain ⟨n, hn, hproc, hrem, hfin, hc1, hc2⟩ := duq_char_aux reg items q i0
  refine ⟨n, hn, hproc, hrem, ?_, ?_, hc1, hc2⟩
  · rw [hfin, hrem]
    rfl
  · rw [hrem]
    exact hs.sublist ((List.filter_sublist _).trans (List.take_sublist _ _))

theorem deleteUntilQuota_char_witness :
    List.Sorted itemLe [(⟨"a", 1, 0⟩ : CacheItem), ⟨"b", 2, 3⟩] ∧
    (∃ n, n ≤ ([(⟨"a", 1, 0⟩ : CacheItem), ⟨"b", 2, 3⟩]).length ∧
      (deleteUntilQuota (fun _ => ["b"]) 0 [⟨"a", 1, 0⟩, ⟨"b", 2, 3⟩] (3/2)).processed
        = ([(⟨"a", 1, 0⟩ : CacheItem), ⟨"b", 2, 3⟩]).take n ∧
      (deleteUntilQuota (fun _ => ["b"]) 0 [⟨"a", 1, 0⟩, ⟨"b", 2, 3⟩] (3/2)).removed.map Prod.snd
        = (([(⟨"a", 1, 0⟩ : CacheItem), ⟨"b", 2, 3⟩]).take n).filter
            (fun it => !itemUsed ["b"] it.Path) ∧
      (deleteUntilQuota (fun _ => ["b"]) 0 [⟨"a", 1, 0⟩, ⟨"b", 2, 3⟩] (3/2)).finalQ
        = 3/2 - (((deleteUntilQuota (fun _ => ["b"]) 0 [⟨"a", 1, 0⟩, ⟨"b", 2, 3⟩]
            (3/2)).removed.map Prod.snd).map (fun it => it.Size)).sum ∧
      List.Sorted itemLe ((deleteUntilQuota (fun _ => ["b"]) 0 [⟨"a", 1, 0⟩, ⟨"b", 2, 3⟩]
        (3/2)).removed.map Prod.snd) ∧
      (∀ k, k + 1 < n → 0 ≤ overAfter ["b"] (3/2) (([(⟨"a", 1, 0⟩ : CacheItem),
        ⟨"b", 2, 3⟩]).take (k + 1))) ∧
      (n < ([(⟨"a", 1, 0⟩ : CacheItem), ⟨"b", 2, 3⟩]).length →
        overAfter ["b"] (3/2) (([(⟨"a", 1, 0⟩ : CacheItem), ⟨"b", 2, 3⟩]).take n) < 0)) := by
  have hs : List.Sorted itemLe [(⟨"a", 1, 0⟩ : CacheItem), ⟨"b", 2, 3⟩] := by
    simp [List.sorted_cons, itemLe]
  exact ⟨hs, deleteUntilQuota_char ["b"] [⟨"a", 1, 0⟩, ⟨"b", 2, 3⟩] (3/2) 0 hs⟩

lemma sizeGB_nonneg (n : ℕ) : 0 ≤ sizeGB n := by
  unfold sizeGB
  positivity

lemma walkCollect_size_nonneg :
    ∀ (entries : List WalkEntry), ∀ it ∈ (walkCollect entries).1, 0 ≤ it.Size := by
  intro entries
  induction entries with
  | nil =>
    intro it h
    simp [walkCollect] at h
  | cons e rest ih =>
    intro it h
    cases he : e.errW with
    | some c =>
      simp [walkCollect, he] at h
    | none =>
      by_cases hf : (!e.isDir && goExt e.path == ".fcache") = true
      · simp [walkCollect, he, hf] at h
        rcases h with h | h
        · subst h
          exact sizeGB_nonneg e.sizeB
        · exact ih it h
      · simp only [walkCollect, he] at h
        rw [if_neg hf] at h
        exact ih it h

lemma walkCollect_total :
    ∀ (entries : List WalkEntry),
      (walkCollect entries).2.1 = ((walkCollect entries).1.map (fun it => it.Size)).sum := by
  intro entries
  induction entries with
  | nil => simp [walkCollect]
  | cons e rest ih =>
    cases he : e.errW with
    | some c => simp [walkCollect, he]
    | none =>
      by_cases hf : (!e.isDir && goExt e.path == ".fcache") = true
      · simp [walkCollect, he, hf, ih]
      · simp [walkCollect, he, hf, ih]

lemma sum_sizes_nonneg :
    ∀ (l : List CacheItem), (∀ it ∈ l, 0 ≤ it.Size) →
      0 ≤ (l.map (fun it => it.Size)).sum := by
  intro l
  induction l with
  | nil => intro _; simp
  | cons a l ih =>
    intro h
    simp only [List.map_cons, List.sum_cons]
    have := h a (List.mem_cons_self a l)
    have := ih (fun it hit => h it (List.mem_cons_of_mem _ hit))
    positivity

lemma sum_map_filter_le (p : CacheItem → Bool) :
    ∀ (l : List CacheItem), (∀ it ∈ l, 0 ≤ it.Size) →
      ((l.filter p).map (fun it => it.Size)).sum ≤ (l.map (fun it => it.Size)).sum := by
  intro l
  induction l with
  | nil => intro _; simp
  | cons a l ih =>
    intro h
    have ha := h a (List.mem_cons_self a l)
    have ih' := ih (fun it hit => h it (List.mem_cons_of_mem _ hit))
    by_cases hp : p a
    · simp only [List.filter_cons, hp, if_pos, List.map_cons, List.sum_cons]
      exact add_le_add_left ih' _
    · simp only [List.filter_cons, hp, Bool.false_eq_true, if_false, List.map_cons,
        List.sum_cons]
      calc ((l.filter p).map (fun it => it.Size)).sum
          ≤ (l.map (fun it => it.Size)).sum := ih'
        _ ≤ a.Size + (l.map (fun it => it.Size)).sum := le_add_of_nonneg_left ha

lemma duq_all (reg : List String) :
    ∀ (items : List CacheItem) (q : ℚ) (i0 : ℕ),
      (∀ it ∈ items, 0 ≤ it.Size) →
      ((items.filter (fun it => !itemUsed reg it.Path)).map (fun it => it.Size)).sum ≤ q →
      (deleteUntilQuota (fun _ => reg) i0 items q).removed.map Prod.snd
          = items.filter (fun it => !itemUsed reg it.Path) ∧
      (deleteUntilQuota (fun _ => reg) i0 items q).processed = items := by
  intro items
  induction items with
  | nil =>
    intro q i0 _ _
    simp [deleteUntilQuota]
  | cons a rest ih =>
    intro q i0 hsz hsum
    have hsz' : ∀ it ∈ rest, 0 ≤ it.Size :=
      fun it hit => hsz it (List.mem_cons_of_mem _ hit)
    have hrest0 : 0 ≤ ((rest.filter (fun it => !itemUsed reg it.Path)).map
        (fun it => it.Size)).sum := by
      apply sum_sizes_nonneg
      intro it hit
      exact hsz' it (List.mem_filter.1 hit).1
    by_cases hu : itemUsed reg a.Path
    · have hsum' : ((rest.filter (fun it => !itemUsed reg it.Path)).map
          (fun it => it.Size)).sum ≤ q := by
        simpa [List.filter_cons, hu] using hsum
      have hq' : ¬ (if itemUsed reg a.Path then q else q - a.Size) < 0 := by
        rw [if_pos hu]
        exact not_lt.2 (le_trans hrest0 hsum')
      obtain ⟨h1, h2⟩ := ih q (i0 + 1) hsz' hsum'
      rw [duq_cons_go (fun _ => reg) i0 a rest q hq']
      constructor
      · simp [List.filter_cons, hu, h1]
      · simp [hu, h2]
    · have hsum' : ((rest.filter (fun it => !itemUsed reg it.Path)).map
          (fun it => it.Size)).sum ≤ q - a.Size := by
        have : a.Size + ((rest.filter (fun it => !itemUsed reg it.Path)).map
            (fun it => it.Size)).sum ≤ q := by
          simpa [List.filter_cons, hu] using hsum
        linarith
      have hq' : ¬ (if itemUsed reg a.Path then q else q - a.Size) < 0 := by
        rw [if_neg hu]
        exact not_lt.2 (le_trans hrest0 hsum')
      obtain ⟨h1, h2⟩ := ih (q - a.Size) (i0 + 1) hsz' hsum'
      rw [duq_cons_go (fun _ => reg) i0 a rest q hq']
      constructor
      · simp [List.filter_cons, hu, h1]
      · simp [hu, h2]

/-- C3 (amended): with quota `0`, a monitor tick whose walk succeeds on a
cache of positive total size does **not** leave the cache files in
place: it enters the overload branch with the full total as overage and
removes every cache file that is not in use (and only those), examining
the entire item list. -/
theorem monitorTick_quota_zero_removes_unused (reg : List String)
    (entries : List WalkEntry)
    (hok : (dirSizeGo entries).2.2 = none)
    (hpos : 0 < (dirSizeGo entries).2.1) :
    (monitorTick 0 (fun _ => reg) entries).removed.map Prod.snd
      = (dirSizeGo entries).1.filter (fun it => !itemUsed reg it.Path) ∧
    (monitorTick 0 (fun _ => reg) entries).processed = (dirSizeGo entries).1 := by
  have hmemsort : ∀ it : CacheItem, it ∈ (dirSizeGo entries).1 → it ∈ (walkCollect entries).1 := by
    intro it hit
    exact (List.Perm.mem_iff (List.perm_insertionSort itemLe _)).1 hit
  have hsz : ∀ it ∈ (dirSizeGo entries).1, 0 ≤ it.Size :=
    fun it hit => walkCollect_size_nonneg entries it (hmemsort it hit)
  have htot : (dirSizeGo entries).2.1 = ((dirSizeGo entries).1.map (fun it => it.Size)).sum := by
    show (walkCollect entries).2.1 = _
    rw [walkCollect_total entries]
    exact (List.Perm.sum_eq ((List.perm_insertionSort itemLe _).map (fun it => it.Size))).symm
  have hsum : (((dirSizeGo entries).1.filter (fun it => !itemUsed reg it.Path)).map
      (fun it => it.Size)).sum ≤ (dirSizeGo entries).2.1 - ((0 : ℤ) : ℚ) := by
    rw [Int.cast_zero, sub_zero, htot]
    exact sum_map_filter_le _ _ hsz
  have hnle : ¬ (dirSizeGo entries).2.1 ≤ ((0 : ℤ) : ℚ) := by
    rw [Int.cast_zero]
    exact not_le.2 hpos
  have hbody : monitorTick 0 (fun _ => reg) entries
      = deleteUntilQuota (fun _ => reg) 0 (dirSizeGo entries).1
          ((dirSizeGo entries).2.1 - ((0 : ℤ) : ℚ)) := by
    simp only [monitorTick]
    rw [hok]
    simp only [Option.isSome_none, Bool.false_eq_true, if_false]
    rw [if_neg hnle]
  rw [hbody]
  exact duq_all reg (dirSizeGo entries).1 _ 0 hsz hsum

/-- C3 (counterexample): under quota `0`, a tick on a cache directory
holding a single unused 1 GB `.fcache` file does *not* leave the file in
place — the tick removes it. -/
theorem monitorTick_quota_zero_cex :
    (monitorTick 0 (fun _ => [])
        [⟨"/c/a.fcache", false, 1073741824, 0, none⟩]).removed.map (fun e => e.2.Path)
      = ["/c/a.fcache"] := by
  have hext : (goExt "/c/a.fcache" == ".fcache") = true := by decide
  have hgb : sizeGB 1073741824 = 1 := by
    rw [sizeGB]
    norm_num
  have hwalk : walkCollect [⟨"/c/a.fcache", false, 1073741824, 0, none⟩]
      = ([⟨"/c/a.fcache", 1, 0⟩], 1, none) := by
    simp [walkCollect, hext, hgb]
  have hdir : dirSizeGo [⟨"/c/a.fcache", false, 1073741824, 0, none⟩]
      = ([⟨"/c/a.fcache", 1, 0⟩], 1, none) := by
    show (List.insertionSort itemLe (walkCollect _).1, (walkCollect _).2.1, (walkCollect _).2.2) = _
    rw [hwalk]
    simp [List.insertionSort, List.orderedInsert]
  have hduq : deleteUntilQuota (fun _ => ([] : List String)) 0 [⟨"/c/a.fcache", 1, 0⟩] 1
      = ⟨[⟨"/c/a.fcache", 1, 0⟩], [(0, ⟨"/c/a.fcache", 1, 0⟩)], 0⟩ := by
    norm_num [deleteUntilQuota, itemUsed]
  simp only [monitorTick, hdir]
  norm_num [hduq]

theorem monitorTick_quota_zero_removes_unused_witness :
    (dirSizeGo [⟨"/c/a.fcache", false, 1073741824, 0, none⟩]).2.2 = none ∧
    0 < (dirSizeGo [⟨"/c/a.fcache", false, 1073741824, 0, none⟩]).2.1 ∧
    ((monitorTick 0 (fun _ => ["other"])
        [⟨"/c/a.fcache", false, 1073741824, 0, none⟩]).removed.map Prod.snd
      = (dirSizeGo [⟨"/c/a.fcache", false, 1073741824, 0, none⟩]).1.filter
          (fun it => !itemUsed ["other"] it.Path) ∧
     (monitorTick 0 (fun _ => ["other"])
        [⟨"/c/a.fcache", false, 1073741824, 0, none⟩]).processed
      = (dirSizeGo [⟨"/c/a.fcache", false, 1073741824, 0, none⟩]).1) := by
  have hext : (goExt "/c/a.fcache" == ".fcache") = true := by decide
  have hgb : sizeGB 1073741824 = 1 := by
    rw [sizeGB]
    norm_num
  have hwalk : walkCollect [⟨"/c/a.fcache", false, 1073741824, 0, none⟩]
      = ([⟨"/c/a.fcache", 1, 0⟩], 1, none) := by
    simp [walkCollect, hext, hgb]
  have hdir : dirSizeGo [⟨"/c/a.fcache", false, 1073741824, 0, none⟩]
      = ([⟨"/c/a.fcache", 1, 0⟩], 1, none) := by
    show (List.insertionSort itemLe (walkCollect _).1, (walkCollect _).2.1, (walkCollect _).2.2) = _
    rw [hwalk]
    simp [List.insertionSort, List.orderedInsert]
  refine ⟨by rw [hdir], by rw [hdir]; norm_num,
    monitorTick_quota_zero_removes_unused ["other"] _ (by rw [hdir]) (by rw [hdir]; norm_num)⟩

/-- The walk predicate of `DirSize`: regular file with `.fcache`
extension. -/
def isCacheFile (e : WalkEntry) : Bool := !e.isDir && goExt e.path == ".fcache"

lemma walkCollect_spec :
    ∀ (entries : List WalkEntry),
      (walkCollect entries).1
        = ((entries.takeWhile (fun e => e.errW.isNone)).filter isCacheFile).map
            (fun e => ⟨e.path, sizeGB e.sizeB, e.mtime⟩) ∧
      (walkCollect entries).2.1
        = (((entries.takeWhile (fun e => e.errW.isNone)).filter isCacheFile).map
            (fun e => sizeGB e.sizeB)).sum ∧
      (walkCollect entries).2.2 = entries.findSome? (fun e => e.errW) := by
  intro entries
  induction entries with
  | nil => simp [walkCollect, List.findSome?]
  | cons e rest ih =>
    obtain ⟨ih1, ih2, ih3⟩ := ih
    cases he : e.errW with
    | some c =>
      refine ⟨?_, ?_, ?_⟩ <;>
        simp [walkCollect, List.findSome?, List.takeWhile_cons, he]
    | none =>
      have htw : (e :: rest).takeWhile (fun e => e.errW.isNone)
          = e :: rest.takeWhile (fun e => e.errW.isNone) := by
        simp [List.takeWhile_cons, he]
      have hwc : walkCollect (e :: rest)
          = (if !e.isDir && goExt e.path == ".fcache" then
              (⟨e.path, sizeGB e.sizeB, e.mtime⟩ :: (walkCollect rest).1,
                sizeGB e.sizeB + (walkCollect rest).2.1, (walkCollect rest).2.2)
            else walkCollect rest) := by
        simp only [walkCollect, he]
      have hfs : List.findSome? (fun e => e.errW) (e :: rest)
          = List.findSome? (fun e => e.errW) rest := by
        simp [List.findSome?, he]
      cases hf : (!e.isDir && goExt e.path == ".fcache") with
      | true =>
        have hfc : isCacheFile e = true := hf
        rw [hwc, if_pos hf, htw, hfs, List.filter_cons, if_pos hfc]
        refine ⟨?_, ?_, ?_⟩ <;> simp [ih1, ih2, ih3]
      | false =>
        have hfc : isCacheFile e = false := hf
        rw [hwc, hfs, htw, List.filter_cons]
        rw [if_neg (by rw [hf]; exact Bool.false_ne_true)]
        rw [if_neg (by rw [hfc]; exact Bool.false_ne_true)]
        exact ⟨ih1, ih2, ih3⟩

/-- C7: `DirSize` returns exactly the non-directory `.fcache` entries of
the walked prefix (the whole directory when no error occurs, the part
before the first error otherwise), as a list sorted ascending by
modification time, together with the sum of their sizes in gigabytes;
the first error encountered by the walk is propagated unchanged. -/
theorem dirSize_spec (entries : List WalkEntry) :
    (dirSizeGo entries).1.Perm
      (((entries.takeWhile (fun e => e.errW.isNone)).filter isCacheFile).map
        (fun e => ⟨e.path, sizeGB e.sizeB, e.mtime⟩)) ∧
    List.Sorted itemLe (dirSizeGo entries).1 ∧
    (dirSizeGo entries).2.1
      = (((entries.takeWhile (fun e => e.errW.isNone)).filter isCacheFile).map
          (fun e => sizeGB e.sizeB)).sum ∧
    (dirSizeGo entries).2.2 = entries.findSome? (fun e => e.errW) := by
  obtain ⟨h1, h2, h3⟩ := walkCollect_spec entries
  refine ⟨?_, ?_, ?_, ?_⟩
  · have : (dirSizeGo entries).1 = List.insertionSort itemLe (walkCollect entries).1 := rfl
    rw [this, h1]
    exact List.perm_insertionSort itemLe _
  · exact List.sorted_insertionSort itemLe _
  · exact h2
  · exact h3

/-! ### Go `path` library: `Clean`, `Join`, `Base` (used by
`File.cacheAllocate`, part_004 lines 188-203, and `Dir` operations) -/

/-- Split a character list on `'/'` (Go's slash-separated elements). -/
def splitSlashAux : List Char → List Char → List (List Char)
  | [], cur => [cur.reverse]
  | c :: cs, cur =>
    if c = '/' then cur.reverse :: splitSlashAux cs []
    else splitSlashAux cs (c :: cur)

def splitSlash (l : List Char) : List (List Char) := splitSlashAux l []

/-- One step of Go `path.Clean`'s element processing: drop empty and `.`
elements, let `..` cancel the preceding element (kept at the start of a
relative path, dropped at the root of a rooted one).  The accumulator
holds the output elements in reverse order. -/
def procSeg (rooted : Bool) (acc : List (List Char)) (seg : List Char) : List (List Char) :=
  if seg = [] ∨ seg = ['.'] then acc
  else if seg = ['.', '.'] then
    match acc with
    | [] => if rooted then [] else [['.', '.']]
    | a :: rest => if a = ['.', '.'] then seg :: acc else rest
  else seg :: acc

def joinSlash : List (List Char) → List Char
  | [] => []
  | [s] => s
  | s :: rest => s ++ '/' :: joinSlash rest

def goCleanL (p : List Char) : List Char :=
  if p = [] then ['.']
  else
    let rooted : Bool := match p with | '/' :: _ => true | _ => false
    let segs := ((splitSlash p).foldl (procSeg rooted) []).reverse
    let out := joinSlash segs
    if rooted then (if out = [] then ['/'] else '/' :: out)
    else (if out = [] then ['.'] else out)

/-- Go `path.Clean`. -/
def goClean (s : String) : String := ⟨goCleanL s.data⟩

/-- Go `path.Join` restricted to two elements: empty elements are
dropped, the rest joined with `/` and cleaned; all-empty input gives
`""`. -/
def goPathJoin (a b : String) : String :=
  if a = "" then (if b = "" then "" else goClean b)
  else if b = "" then goClean a
  else goClean (a ++ "/" ++ b)

/-- `File.cacheAllocate` (part_004 lines 188-203), path part:
`path.Join(f.mfs.config.cache, object.Key + "-" + object.ETag + ".fcache")`.
The bucket takes no part in the path. -/
def cacheAllocatePath (cacheDir objectKey etag : String) : String :=
  goPathJoin cacheDir (objectKey ++ "-" ++ etag ++ ".fcache")

/-- `File.cacheAllocate` including the `StatObject` outcome: `NotFound`
maps to `ENOENT`, other stat errors are propagated, and on success the
path is produced from the returned object's key and ETag. -/
def cacheAllocate (cacheDir : String) (statRes : Option (Option (String × String))) :
    Option String :=
  match statRes with
  | none => none
  | some none => none
  | some (some (key, etag)) => some (cacheAllocatePath cacheDir key etag)

lemma string_data_append (s t : String) : (s ++ t).data = s.data ++ t.data := rfl

/-- C4 (counterexample): two distinct ETags that produce the same cache
path, because `path.Join` runs `path.Clean` over the result — the ETags
`"a/b"` and `"a//b"` collide, and the produced path is not the literal
`<cacheDir>/<objectKey>-<etag>.fcache` for the second of them. -/
theorem cacheAllocatePath_collision_cex :
    cacheAllocatePath "c" "k" "a/b" = cacheAllocatePath "c" "k" "a//b" ∧
    ("a/b" : String) ≠ "a//b" ∧
    cacheAllocatePath "c" "k" "a//b" ≠ "c" ++ "/" ++ "k" ++ "-" ++ "a//b" ++ ".fcache" := by
  refine ⟨?_, ?_, ?_⟩ <;> decide

/-- C4 (amended): cache-path allocation is deterministic in
`(cacheDir, objectKey, etag)` — the bucket plays no role — and *when the
combined path is already in clean form* (no empty, `.` or `..`
elements introduced by the three components) the result is exactly
`<cacheDir>/<objectKey>-<etag>.fcache`; two clean-form ETags that yield
the same path are equal. -/
theorem cacheAllocatePath_char (cacheDir key e₁ e₂ : String)
    (hdir : cacheDir ≠ "")
    (h₁ : goClean (cacheDir ++ "/" ++ (key ++ "-" ++ e₁ ++ ".fcache"))
        = cacheDir ++ "/" ++ (key ++ "-" ++ e₁ ++ ".fcache"))
    (h₂ : goClean (cacheDir ++ "/" ++ (key ++ "-" ++ e₂ ++ ".fcache"))
        = cacheDir ++ "/" ++ (key ++ "-" ++ e₂ ++ ".fcache")) :
    cacheAllocatePath cacheDir key e₁ = cacheDir ++ "/" ++ (key ++ "-" ++ e₁ ++ ".fcache") ∧
    (cacheAllocatePath cacheDir key e₁ = cacheAllocatePath cacheDir key e₂ → e₁ = e₂) := by
  have hne : ∀ e : String, (key ++ "-" ++ e ++ ".fcache") ≠ "" := by
    intro e hcontra
    have hd := congrArg String.data hcontra
    rw [string_data_append] at hd
    exact absurd (List.append_eq_nil.1 hd).2 (by decide)
  have heval : ∀ e : String,
      goClean (cacheDir ++ "/" ++ (key ++ "-" ++ e ++ ".fcache"))
        = cacheAllocatePath cacheDir key e := by
    intro e
    rw [cacheAllocatePath, goPathJoin, if_neg hdir, if_neg (hne e)]
  constructor
  · rw [← heval e₁, h₁]
  · intro heq
    have hfull : cacheDir ++ "/" ++ (key ++ "-" ++ e₁ ++ ".fcache")
        = cacheDir ++ "/" ++ (key ++ "-" ++ e₂ ++ ".fcache") := by
      rw [← h₁, ← h₂, heval e₁, heval e₂, heq]
    have hdata : e₁.data = e₂.data := by
      have h := congrArg String.data hfull
      simp only [string_data_append, List.append_assoc] at h
      have h1 := List.append_cancel_left h
      have h2 := List.append_cancel_left h1
      have h3 := List.append_cancel_left h2
      have h4 := List.append_cancel_left h3
      exact List.append_cancel_right h4
    exact String.ext hdata

theorem cacheAllocatePath_char_witness :
    (("c" : String) ≠ "") ∧
    goClean ("c" ++ "/" ++ ("k" ++ "-" ++ "E1" ++ ".fcache"))
      = "c" ++ "/" ++ ("k" ++ "-" ++ "E1" ++ ".fcache") ∧
    goClean ("c" ++ "/" ++ ("k" ++ "-" ++ "E2" ++ ".fcache"))
      = "c" ++ "/" ++ ("k" ++ "-" ++ "E2" ++ ".fcache") ∧
    (cacheAllocatePath "c" "k" "E1" = "c" ++ "/" ++ ("k" ++ "-" ++ "E1" ++ ".fcache") ∧
     (cacheAllocatePath "c" "k" "E1" = cacheAllocatePath "c" "k" "E2" → ("E1" : String) = "E2")) :=
  ⟨by decide, by decide, by decide,
   cacheAllocatePath_char "c" "k" "E1" "E2" (by decide) (by decide) (by decide)⟩

/-! ### Directory scanning and metadata store (`fs/dir.go`) -/

/-- Go `path.Base`: strip trailing slashes, then keep everything after
the last remaining slash; `""` gives `"."` and an all-slash path gives
`"/"`. -/
def stripTrailingSlashes (l : List Char) : List Char :=
  (l.reverse.dropWhile (fun c => c = '/')).reverse

def lastSlashSeg (l : List Char) : List Char :=
  (l.reverse.takeWhile (fun c => c ≠ '/')).reverse

def goBase (s : String) : String :=
  if s.data = [] then "."
  else
    let l := stripTrailingSlashes s.data
    if l = [] then "/" else ⟨lastSlashSeg l⟩

/-- `strings.HasSuffix(key, "/")`. -/
def endsWithSlash (s : String) : Bool := s.data.getLast? == some '/'

/-- `objInfo.Key[len(prefix):]` (byte slicing, modelled on characters). -/
def strDrop (s : String) (n : ℕ) : String := ⟨s.data.drop n⟩

/-- The relevant parts of `Config` (`fs/config.go`). -/
structure MConfig where
  uid : ℕ
  gid : ℕ
  mode : ℕ
  deriving DecidableEq

/-- `os.ModeDir` = bit 31 of `os.FileMode`. -/
def modeDirBit : ℕ := 2 ^ 31

/-- `uint64(x)` for an `int64` value `x`. -/
def uintCast (x : ℤ) : ℕ := (x % (2 : ℤ) ^ 64).toNat

/-- The stored `File` record (part_004 lines 32-60). -/
structure FileRec where
  Path : String
  Inode : ℕ
  Mode : ℕ
  Size : ℕ
  ETag : String
  Atime : ℤ
  Mtime : ℤ
  Chgtime : ℤ
  Crtime : ℤ
  Bkuptime : ℤ
  Flags : ℕ
  UID : ℕ
  GID : ℕ
  deriving DecidableEq

/-- The stored `Dir` record (`fs/dir.go` lines 33-59). -/
structure DirRec where
  Path : String
  Inode : ℕ
  Mode : ℕ
  Atime : ℤ
  Mtime : ℤ
  Chgtime : ℤ
  Crtime : ℤ
  UID : ℕ
  GID : ℕ
  deriving DecidableEq

inductive NodeEntry where
  | fileE : FileRec → NodeEntry
  | dirE : DirRec → NodeEntry
  deriving DecidableEq

/-- A directory's BoltDB bucket, as an association list keyed by entry
name (sub-buckets are not modelled; every directory's own bucket is
treated independently). -/
abbrev DB := List (String × NodeEntry)

def dbGet (db : DB) (k : String) : Option NodeEntry :=
  (db.find? (fun kv => kv.1 == k)).map (fun kv => kv.2)

def dbPut (db : DB) (k : String) (v : NodeEntry) : DB :=
  if db.any (fun kv => kv.1 == k) then
    db.map (fun kv => if kv.1 == k then (k, v) else kv)
  else db ++ [(k, v)]

def dbDel (db : DB) (k : String) : DB := db.filter (fun kv => kv.1 != k)

/-- `minio.ObjectInfo` fields consumed by the scan. -/
structure ObjInfo where
  Key : String
  Size : ℤ
  ETag : String
  LastModified : ℤ
  deriving DecidableEq

inductive MetaErr where
  | typeMismatch
  deriving DecidableEq

instance {e a : Type} [DecidableEq e] [DecidableEq a] : DecidableEq (Except e a) := fun x y =>
  match x, y with
  | .ok u, .ok v =>
    if h : u = v then isTrue (h ▸ rfl)
    else isFalse (fun hc => h (Except.noConfusion hc id))
  | .error u, .error v =>
    if h : u = v then isTrue (h ▸ rfl)
    else isFalse (fun hc => h (Except.noConfusion hc id))
  | .ok _, .error _ => isFalse (fun hc => Except.noConfusion hc)
  | .error _, .ok _ => isFalse (fun hc => Except.noConfusion hc)

/-- The in-memory update computed in `storeFile`'s exists-branch
(`fs/dir.go` lines 147-163): size and ETag replaced, each timestamp set
to `objInfo.LastModified` only when `LastModified.After` the stored
value. -/
def updatedFileRec (f : FileRec) (o : ObjInfo) : FileRec :=
  { f with
    Size := uintCast o.Size
    ETag := o.ETag
    Chgtime := if o.LastModified > f.Chgtime then o.LastModified else f.Chgtime
    Crtime := if o.LastModified > f.Crtime then o.LastModified else f.Crtime
    Mtime := if o.LastModified > f.Mtime then o.LastModified else f.Mtime
    Atime := if o.LastModified > f.Atime then o.LastModified else f.Atime }

/-- `Dir.storeFile` (`fs/dir.go` lines 143-191).  When the entry exists
the updated record is computed but **not** written back — the source has
no `f.store(tx)` call in that branch, so the database is returned
unchanged.  When the entry is absent a fresh inode is allocated and a
new record is stored.  A stored entry of the wrong kind fails the gob
decode and the error is returned. -/
def storeFile (cfg : MConfig) (db : DB) (seq : ℕ) (baseKey : String) (o : ObjInfo) :
    Except MetaErr (DB × ℕ) :=
  match dbGet db baseKey with
  | some (.fileE f) =>
      let _upd := updatedFileRec f o
      .ok (db, seq)
  | some (.dirE _) => .error .typeMismatch
  | none =>
      let f : FileRec :=
        { Path := baseKey
          Inode := seq + 1
          Mode := cfg.mode
          Size := uintCast o.Size
          ETag := o.ETag
          Atime := o.LastModified
          Mtime := o.LastModified
          Chgtime := o.LastModified
          Crtime := o.LastModified
          Bkuptime := 0
          Flags := 0
          UID := cfg.uid
          GID := cfg.gid }
      .ok (dbPut db baseKey (.fileE f), seq + 1)

/-- `Dir.storeDir` (`fs/dir.go` lines 193-226): an existing prefix only
has its back-references refreshed (no stored change); a new prefix is
stored with mode `0770 | os.ModeDir` and all four timestamps set to the
object's `LastModified`. -/
def storeDir (cfg : MConfig) (db : DB) (seq : ℕ) (baseKey : String) (o : ObjInfo) :
    Except MetaErr (DB × ℕ) :=
  match dbGet db baseKey with
  | some (.dirE _) => .ok (db, seq)
  | some (.fileE _) => .error .typeMismatch
  | none =>
      let d : DirRec :=
        { Path := baseKey
          Inode := seq + 1
          Mode := 0o770 ||| modeDirBit
          Atime := o.LastModified
          Mtime := o.LastModified
          Chgtime := o.LastModified
          Crtime := o.LastModified
          UID := cfg.uid
          GID := cfg.gid }
      .ok (dbPut db baseKey (.dirE d), seq + 1)

/-- The body of `Dir.scan`'s listing loop (`fs/dir.go` lines 267-279):
strip the listing prefix from the key, take its base, and dispatch on a
trailing `/` to `storeDir` or `storeFile`; the return values of both are
discarded in the source, so an error leaves the transaction state
unchanged. -/
def scanStep (cfg : MConfig) (prefLen : ℕ) (st : DB × ℕ) (o : ObjInfo) : DB × ℕ :=
  let key := strDrop o.Key prefLen
  let baseKey := goBase key
  if endsWithSlash key then
    match storeDir cfg st.1 st.2 baseKey o with
    | .ok st' => st'
    | .error _ => st
  else
    match storeFile cfg st.1 st.2 baseKey o with
    | .ok st' => st'
    | .error _ => st

/-- `Dir.scan`'s else-branch (`fs/dir.go` lines 228-304): record the
non-slash keys present in the bucket, run the listing loop, then delete
every recorded key that the listing did not produce. -/
def scanFull (cfg : MConfig) (prefLen : ℕ) (db : DB) (seq : ℕ)
    (listing : List ObjInfo) : DB × ℕ :=
  let marked := (db.map (fun kv => kv.1)).filter (fun k => !endsWithSlash k)
  let seen := listing.map (fun o => goBase (strDrop o.Key prefLen))
  let st := listing.foldl (scanStep cfg prefLen) (db, seq)
  (marked.foldl (fun d k => if seen.contains k then d else dbDel d k) st.1, st.2)

/-- The mutable node state of a `Dir`: its `scanned` flag, its bucket
and the inode sequence counter. -/
structure DirNode where
  scanned : Bool
  db : DB
  seq : ℕ
  deriving DecidableEq

/-- `Dir.scan` (`fs/dir.go` lines 228-304): a no-op returning no listing
call when `scanned` is already set (`needsScan` false); otherwise one
`ListObjects` call is issued, the bucket is refreshed and `scanned` is
set.  The returned number counts `ListObjects` calls. -/
def dirScan (cfg : MConfig) (prefLen : ℕ) (st : DirNode) (listing : List ObjInfo) :
    DirNode × ℕ :=
  if st.scanned then (st, 0)
  else
    let r := scanFull cfg prefLen st.db st.seq listing
    (⟨true, r.1, r.2⟩, 1)

inductive LookupRes where
  | fileR : FileRec → LookupRes
  | dirR : DirRec → LookupRes
  | enoent : LookupRes
  deriving DecidableEq

/-- The database part of `Dir.Lookup` (`fs/dir.go` lines 92-117): the
entry under `name` is returned as a file or directory node, a missing
entry is `ENOENT`. -/
def lookupFromDb (db : DB) (name : String) : LookupRes :=
  match dbGet db name with
  | some (.fileE f) => .fileR f
  | some (.dirE d) => .dirR d
  | none => .enoent

/-- `Dir.Lookup` (`fs/dir.go` lines 84-118): scan if needed, then answer
from the database. -/
def dirLookup (cfg : MConfig) (prefLen : ℕ) (st : DirNode) (listing : List ObjInfo)
    (name : String) : LookupRes × DirNode × ℕ :=
  let r := dirScan cfg prefLen st listing
  (lookupFromDb r.1.db name, r.1, r.2)

/-- `Dir.ReadDirAll` (`fs/dir.go` lines 307-339): clear `scanned`, scan,
then enumerate the bucket. -/
def dirReadDirAll (cfg : MConfig) (prefLen : ℕ) (st : DirNode) (listing : List ObjInfo) :
    List String × DirNode × ℕ :=
  let st0 : DirNode := ⟨false, st.db, st.seq⟩
  let r := dirScan cfg prefLen st0 listing
  (r.1.db.map (fun kv => kv.1), r.1, r.2)

/-- C8 (amended): in the below-root listing loop, a key ending in `/`
that is not yet in the metadata surfaces as a subdirectory whose mode is
`0770 | DIR` (not `0555 | DIR`) with all timestamps set to the object's
`LastModified`; any other key not yet in the metadata surfaces as a file
with the object's size, timestamps and ETag propagated; a key already
present leaves the stored entry (and the whole transaction state)
unchanged. -/
theorem scanStep_spec (cfg : MConfig) (prefLen : ℕ) (db : DB) (seq : ℕ) (o : ObjInfo) :
    (endsWithSlash (strDrop o.Key prefLen) = true →
     dbGet db (goBase (strDrop o.Key prefLen)) = none →
     scanStep cfg prefLen (db, seq) o
       = (dbPut db (goBase (strDrop o.Key prefLen))
           (.dirE ⟨goBase (strDrop o.Key prefLen), seq + 1, 0o770 ||| modeDirBit,
                   o.LastModified, o.LastModified, o.LastModified, o.LastModified,
                   cfg.uid, cfg.gid⟩), seq + 1)) ∧
    (endsWithSlash (strDrop o.Key prefLen) = false →
     dbGet db (goBase (strDrop o.Key prefLen)) = none →
     scanStep cfg prefLen (db, seq) o
       = (dbPut db (goBase (strDrop o.Key prefLen))
           (.fileE ⟨goBase (strDrop o.Key prefLen), seq + 1, cfg.mode, uintCast o.Size,
                    o.ETag, o.LastModified, o.LastModified, o.LastModified,
                    o.LastModified, 0, 0, cfg.uid, cfg.gid⟩), seq + 1)) ∧
    (∀ e, dbGet db (goBase (strDrop o.Key prefLen)) = some e →
     scanStep cfg prefLen (db, seq) o = (db, seq)) := by
  refine ⟨?_, ?_, ?_⟩
  · intro hs hn
    simp [scanStep, storeDir, hs, hn]
  · intro hs hn
    simp [scanStep, storeFile, hs, hn]
  · intro e he
    cases hslash : endsWithSlash (strDrop o.Key prefLen) <;> cases e <;>
      simp [scanStep, storeDir, storeFile, he, hslash]

theorem scanStep_spec_witness :
    endsWithSlash (strDrop ("d/" : String) 0) = true ∧
    dbGet [] (goBase (strDrop ("d/" : String) 0)) = none ∧
    scanStep ⟨1000, 1000, 420⟩ 0 ([], 0) ⟨"d/", 0, "", 7⟩
      = (dbPut [] (goBase (strDrop ("d/" : String) 0))
          (.dirE ⟨goBase (strDrop ("d/" : String) 0), 0 + 1, 0o770 ||| modeDirBit,
                  7, 7, 7, 7, 1000, 1000⟩), 0 + 1) ∧
    endsWithSlash (strDrop ("f" : String) 0) = false ∧
    scanStep ⟨1000, 1000, 420⟩ 0 ([], 0) ⟨"f", 9, "E2", 7⟩
      = (dbPut [] (goBase (strDrop ("f" : String) 0))
          (.fileE ⟨goBase (strDrop ("f" : String) 0), 0 + 1, 420, uintCast 9,
                   "E2", 7, 7, 7, 7, 0, 0, 1000, 1000⟩), 0 + 1) :=
  ⟨by decide, by decide,
   (scanStep_spec ⟨1000, 1000, 420⟩ 0 [] 0 ⟨"d/", 0, "", 7⟩).1 (by decide) (by decide),
   by decide,
   (scanStep_spec ⟨1000, 1000, 420⟩ 0 [] 0 ⟨"f", 9, "E2", 7⟩).2.1 (by decide) (by decide)⟩

/-- C8 (counterexample): a freshly listed key `"d/"` is stored with mode
`0770 | DIR`, which differs from the claimed `0555 | DIR`; and a listed
key whose entry already exists keeps its stale stored ETag instead of
the listed one. -/
theorem scanStep_mode_cex :
    dbGet (scanStep ⟨1000, 1000, 420⟩ 0 ([], 0) ⟨"d/", 0, "", 7⟩).1 "d"
      = some (.dirE ⟨"d", 1, 0o770 ||| modeDirBit, 7, 7, 7, 7, 1000, 1000⟩) ∧
    (0o770 ||| modeDirBit) ≠ (0o555 ||| modeDirBit) ∧
    dbGet (scanStep ⟨1000, 1000, 420⟩ 0
        ([("k", .fileE ⟨"k", 1, 420, 3, "E1", 0, 0, 0, 0, 0, 0, 1000, 1000⟩)], 5)
        ⟨"k", 9, "E2", 7⟩).1 "k"
      = some (.fileE ⟨"k", 1, 420, 3, "E1", 0, 0, 0, 0, 0, 0, 1000, 1000⟩) ∧
    ("E1" : String) ≠ "E2" := by
  refine ⟨?_, ?_, ?_, ?_⟩ <;> decide

/-- C9: the exists-branch of `storeFile` computes the monotone
max-with-`LastModified` update of every timestamp — the claim's intended
behaviour, proved of `updatedFileRec` below — but never writes it back
(`f.store(tx)` is only called in the not-found branch), so the stored
entry keeps its old timestamps: at the concrete failing input the stored
`Mtime` stays `0` although the object's `LastModified` is `7`. -/
theorem storeFile_update_dropped :
    storeFile ⟨1000, 1000, 420⟩
        [("k", .fileE ⟨"k", 1, 420, 3, "E1", 0, 0, 0, 0, 0, 0, 1000, 1000⟩)] 5 "k"
        ⟨"k", 9, "E2", 7⟩
      = .ok ([("k", .fileE ⟨"k", 1, 420, 3, "E1", 0, 0, 0, 0, 0, 0, 1000, 1000⟩)], 5) ∧
    (updatedFileRec ⟨"k", 1, 420, 3, "E1", 0, 0, 0, 0, 0, 0, 1000, 1000⟩
        ⟨"k", 9, "E2", 7⟩).Mtime = 7 ∧
    (⟨"k", 1, 420, 3, "E1", 0, 0, 0, 0, 0, 0, 1000, 1000⟩ : FileRec).Mtime = 0 ∧
    (∀ (f : FileRec) (o : ObjInfo),
      (updatedFileRec f o).Chgtime = max f.Chgtime o.LastModified ∧
      (updatedFileRec f o).Crtime = max f.Crtime o.LastModified ∧
      (updatedFileRec f o).Mtime = max f.Mtime o.LastModified ∧
      (updatedFileRec f o).Atime = max f.Atime o.LastModified ∧
      f.Chgtime ≤ (updatedFileRec f o).Chgtime ∧
      f.Crtime ≤ (updatedFileRec f o).Crtime ∧
      f.Mtime ≤ (updatedFileRec f o).Mtime ∧
      f.Atime ≤ (updatedFileRec f o).Atime) := by
  refine ⟨by decide, by decide, by decide, ?_⟩
  intro f o
  refine ⟨?_, ?_, ?_, ?_, ?_, ?_, ?_, ?_⟩ <;>
    simp only [updatedFileRec, max_def] <;> split_ifs <;> omega

/-- C10: once a directory's `scanned` flag is set, `Lookup` issues no
`ListObjects` call, leaves the node untouched and answers entirely from
the local metadata — in particular its result is independent of the
object-store listing, so it can be stale — until `ReadDirAll`, which
always clears the flag and rescans (exactly one listing call). -/
theorem lookup_after_scan_is_stale (cfg : MConfig) (prefLen : ℕ) (st : DirNode)
    (listing : List ObjInfo) (name : String) (h : st.scanned = true) :
    (dirLookup cfg prefLen st listing name).2.2 = 0 ∧
    (dirLookup cfg prefLen st listing name).2.1 = st ∧
    (dirLookup cfg prefLen st listing name).1 = lookupFromDb st.db name ∧
    (∀ listing' : List ObjInfo,
      (dirLookup cfg prefLen st listing' name).1 = lookupFromDb st.db name) ∧
    (∀ listing' : List ObjInfo, (dirReadDirAll cfg prefLen st listing').2.2 = 1) := by
  have hscan : ∀ l : List ObjInfo, dirScan cfg prefLen st l = (st, 0) := by
    intro l
    simp [dirScan, h]
  refine ⟨?_, ?_, ?_, fun l => ?_, fun l => ?_⟩
  · simp [dirLookup, hscan]
  · simp [dirLookup, hscan]
  · simp [dirLookup, hscan]
  · simp [dirLookup, hscan]
  · simp [dirReadDirAll, dirScan]

theorem lookup_after_scan_is_stale_witness :
    (⟨true, [("x", .fileE ⟨"x", 1, 420, 3, "E1", 0, 0, 0, 0, 0, 0, 1000, 1000⟩)], 3⟩
        : DirNode).scanned = true ∧
    ((dirLookup ⟨1000, 1000, 420⟩ 0
        ⟨true, [("x", .fileE ⟨"x", 1, 420, 3, "E1", 0, 0, 0, 0, 0, 0, 1000, 1000⟩)], 3⟩
        [⟨"y/", 0, "", 2⟩] "x").2.2 = 0 ∧
     (dirLookup ⟨1000, 1000, 420⟩ 0
        ⟨true, [("x", .fileE ⟨"x", 1, 420, 3, "E1", 0, 0, 0, 0, 0, 0, 1000, 1000⟩)], 3⟩
        [⟨"y/", 0, "", 2⟩] "x").2.1
       = ⟨true, [("x", .fileE ⟨"x", 1, 420, 3, "E1", 0, 0, 0, 0, 0, 0, 1000, 1000⟩)], 3⟩ ∧
     (dirLookup ⟨1000, 1000, 420⟩ 0
        ⟨true, [("x", .fileE ⟨"x", 1, 420, 3, "E1", 0, 0, 0, 0, 0, 0, 1000, 1000⟩)], 3⟩
        [⟨"y/", 0, "", 2⟩] "x").1
       = lookupFromDb [("x", .fileE ⟨"x", 1, 420, 3, "E1", 0, 0, 0, 0, 0, 0, 1000, 1000⟩)] "x" ∧
     (∀ listing' : List ObjInfo,
       (dirLookup ⟨1000, 1000, 420⟩ 0
          ⟨true, [("x", .fileE ⟨"x", 1, 420, 3, "E1", 0, 0, 0, 0, 0, 0, 1000, 1000⟩)], 3⟩
          listing' "x").1
         = lookupFromDb [("x", .fileE ⟨"x", 1, 420, 3, "E1", 0, 0, 0, 0, 0, 0, 1000, 1000⟩)] "x") ∧
     (∀ listing' : List ObjInfo,
       (dirReadDirAll ⟨1000, 1000, 420⟩ 0
          ⟨true, [("x", .fileE ⟨"x", 1, 420, 3, "E1", 0, 0, 0, 0, 0, 0, 1000, 1000⟩)], 3⟩
          listing').2.2 = 1)) :=
  ⟨rfl, lookup_after_scan_is_stale ⟨1000, 1000, 420⟩ 0 _ [⟨"y/", 0, "", 2⟩] "x" rfl⟩

/-! ### Mutating directory operations (`fs/dir.go` lines 352-621) -/

inductive FuseErr where
  | enoent
  | eio
  | eperm
  deriving DecidableEq

/-- The state a `Dir.Remove` call touches: the directory's metadata
bucket and the set of object keys in the object store. -/
structure FsState where
  db : DB
  store : List String
  deriving DecidableEq

/-- `Dir.Remove` (`fs/dir.go` lines 390-422), happy path of `mfs.wait`
and of the network call: a missing entry is `ENOENT`; otherwise the
entry is deleted from the bucket, `RemoveObject` deletes
`path.Join(dir.RemotePath(), req.Name)` from the object store, and the
transaction commits returning success.  (`DeleteBucket` for a
directory's sub-bucket is outside the single-bucket model.) -/
def dirRemove (st : FsState) (dirRemotePath name : String) (isDir : Bool) :
    Except FuseErr FsState :=
  match dbGet st.db name with
  | none => .error .enoent
  | some _ =>
      let db1 := dbDel st.db name
      let objPath := goPathJoin dirRemotePath name
      let store1 := st.store.filter (fun k => k != objPath)
      .ok ⟨db1, store1⟩

lemma dbGet_dbDel_self (db : DB) (k : String) : dbGet (dbDel db k) k = none := by
  cases hf : (dbDel db k).find? (fun kv => kv.1 == k) with
  | none => simp [dbGet, hf]
  | some kv =>
    have hmem := List.mem_of_find?_eq_some hf
    have hpred := List.find?_some hf
    have hne : kv.1 ≠ k := by
      have := (List.mem_filter.1 hmem).2
      simpa using this
    exact absurd (by simpa using hpred) hne

lemma dbGet_cons_hit (kv : String × NodeEntry) (db : DB) (m : String)
    (h : (kv.1 == m) = true) : dbGet (kv :: db) m = some kv.2 := by
  simp [dbGet, List.find?, h]

lemma dbGet_cons_miss (kv : String × NodeEntry) (db : DB) (m : String)
    (h : (kv.1 == m) = false) : dbGet (kv :: db) m = dbGet db m := by
  simp [dbGet, List.find?, h]

lemma dbGet_dbDel_other (db : DB) (k m : String) (h : m ≠ k) :
    dbGet (dbDel db k) m = dbGet db m := by
  induction db with
  | nil => rfl
  | cons kv db ih =>
    by_cases h2 : kv.1 = k
    · have hdrop : (kv.1 != k) = false := by simp [h2]
      have hm : (kv.1 == m) = false := by
        simp only [beq_eq_false_iff_ne, ne_eq]
        rw [h2]
        exact fun hc => h hc.symm
      have hstep : dbDel (kv :: db) k = dbDel db k := by
        simp [dbDel, List.filter_cons, hdrop]
      rw [hstep, ih, dbGet_cons_miss kv db m hm]
    · have hkept : (kv.1 != k) = true := by simp [h2]
      have hstep : dbDel (kv :: db) k = kv :: dbDel db k := by
        simp [dbDel, List.filter_cons, hkept]
      by_cases h1 : kv.1 = m
      · have hm : (kv.1 == m) = true := by simp [h1]
        rw [hstep, dbGet_cons_hit kv _ m hm, dbGet_cons_hit kv db m hm]
      · have hm : (kv.1 == m) = false := by simp [h1]
        rw [hstep, dbGet_cons_miss kv _ m hm, ih, dbGet_cons_miss kv db m hm]

/-- C2 (amended): the directory-mutating `Remove` is *not* inert: on a
name present in the metadata it returns success after really mutating
both stores — the metadata entry is gone, the object
`path.Join(remotePath, name)` is removed from the object store, and
nothing else changes; on an absent name it returns `ENOENT` (never a
"not permitted" code). -/
theorem dirRemove_mutates (st : FsState) (p name : String) (isDir : Bool) :
    (dbGet st.db name = none → dirRemove st p name isDir = .error .enoent) ∧
    (∀ e, dbGet st.db name = some e →
      ∃ st', dirRemove st p name isDir = .ok st' ∧
        dbGet st'.db name = none ∧
        goPathJoin p name ∉ st'.store ∧
        (∀ k ∈ st.store, k ≠ goPathJoin p name → k ∈ st'.store) ∧
        (∀ m, m ≠ name → dbGet st'.db m = dbGet st.db m)) := by
  constructor
  · intro hn
    simp [dirRemove, hn]
  · intro e he
    refine ⟨⟨dbDel st.db name, st.store.filter (fun k => k != goPathJoin p name)⟩,
      ?_, ?_, ?_, ?_, ?_⟩
    · simp [dirRemove, he]
    · exact dbGet_dbDel_self st.db name
    · intro hmem
      have := (List.mem_filter.1 hmem).2
      simp at this
    · intro k hk hkne
      exact List.mem_filter.2 ⟨hk, by simpa using hkne⟩
    · intro m hm
      exact dbGet_dbDel_other st.db name m hm

theorem dirRemove_mutates_witness :
    dbGet [("x", .fileE ⟨"x", 1, 420, 3, "E1", 0, 0, 0, 0, 0, 0, 1000, 1000⟩)] "x"
      = some (.fileE ⟨"x", 1, 420, 3, "E1", 0, 0, 0, 0, 0, 0, 1000, 1000⟩) ∧
    (∃ st', dirRemove
        ⟨[("x", .fileE ⟨"x", 1, 420, 3, "E1", 0, 0, 0, 0, 0, 0, 1000, 1000⟩)], ["p/x"]⟩
        "p" "x" false = .ok st' ∧
      dbGet st'.db "x" = none ∧
      goPathJoin "p" "x" ∉ st'.store ∧
      (∀ k ∈ (⟨[("x", .fileE ⟨"x", 1, 420, 3, "E1", 0, 0, 0, 0, 0, 0, 1000, 1000⟩)],
          ["p/x"]⟩ : FsState).store, k ≠ goPathJoin "p" "x" → k ∈ st'.store) ∧
      (∀ m, m ≠ "x" → dbGet st'.db m
        = dbGet [("x", .fileE ⟨"x", 1, 420, 3, "E1", 0, 0, 0, 0, 0, 0, 1000, 1000⟩)] m)) :=
  ⟨by decide,
   (dirRemove_mutates
      ⟨[("x", .fileE ⟨"x", 1, 420, 3, "E1", 0, 0, 0, 0, 0, 0, 1000, 1000⟩)], ["p/x"]⟩
      "p" "x" false).2 (.fileE ⟨"x", 1, 420, 3, "E1", 0, 0, 0, 0, 0, 0, 1000, 1000⟩)
      (by decide)⟩

/-- C2 (counterexample): `Remove` on an existing entry returns success
**with** an effect — both the metadata bucket and the object store
change — contradicting "success with no effect or not permitted, with no
mutation". -/
theorem dir_remove_not_inert_cex :
    dirRemove ⟨[("x", .fileE ⟨"x", 1, 420, 3, "E1", 0, 0, 0, 0, 0, 0, 1000, 1000⟩)],
        ["p/x"]⟩ "p" "x" false
      = .ok ⟨[], []⟩ ∧
    ((⟨[], []⟩ : FsState)
      ≠ ⟨[("x", .fileE ⟨"x", 1, 420, 3, "E1", 0, 0, 0, 0, 0, 0, 1000, 1000⟩)], ["p/x"]⟩) := by
  refine ⟨?_, ?_⟩ <;> decide

/-! ### File open and cache population (`File.cacheSave`, part_004 lines 149-185) -/

/-- A cache file on disk: its contents and its modification time. -/
structure DiskFile where
  content : List ℕ
  mtimeD : ℤ
  deriving DecidableEq

/-- Outcome of `api.FGetObject` for the requested object. -/
inductive FetchRes where
  | content : List ℕ → FetchRes
  | notFound
  | transportErr
  deriving DecidableEq

/-- `File.cacheSave` (part_004 lines 149-185).  If the cache path exists
on disk, only `os.Chtimes(path, now, now)` runs (modelled as
succeeding) and the attribute size is left as it was; otherwise a
truncate-open records size 0 without fetching; otherwise `FGetObject`
fetches the object to the path (`NoSuchObject` → `ENOENT`, transport
errors → the error) and the on-disk size is recorded.  The returned
`Bool` records whether `FGetObject` was invoked. -/
def cacheSave (disk : String → Option DiskFile) (p : String) (truncate : Bool)
    (fetch : FetchRes) (now : ℤ) (fSize : ℕ) :
    Except FuseErr ((String → Option DiskFile) × ℕ × Bool) :=
  match disk p with
  | some df =>
      .ok (fun q => if q = p then some ⟨df.content, now⟩ else disk q, fSize, false)
  | none =>
      if truncate then .ok (disk, 0, false)
      else
        match fetch with
        | .notFound => .error .enoent
        | .transportErr => .error .eio
        | .content c =>
            .ok (fun q => if q = p then some ⟨c, now⟩ else disk q, c.length, true)

/-- C6: a warm open — the resolved cache path already exists on disk —
performs no fetch: `cacheSave` succeeds with the fetch flag `false`, the
cached file's modification time is set to `now` with its contents
unchanged, every other path is untouched, and the recorded attribute
size is the previous one. -/
theorem cacheSave_warm (disk : String → Option DiskFile) (p : String) (truncate : Bool)
    (fetch : FetchRes) (now : ℤ) (fSize : ℕ) (df : DiskFile)
    (h : disk p = some df) :
    ∃ disk', cacheSave disk p truncate fetch now fSize = .ok (disk', fSize, false) ∧
      disk' p = some ⟨df.content, now⟩ ∧
      (∀ q, q ≠ p → disk' q = disk q) ∧
      (∀ q g g', disk q = some g → disk' q = some g' → g'.content = g.content) := by
  refine ⟨fun q => if q = p then some ⟨df.content, now⟩ else disk q, ?_, ?_, ?_, ?_⟩
  · simp [cacheSave, h]
  · simp
  · intro q hq
    simp [hq]
  · intro q g g' hg hg'
    by_cases hq : q = p
    · subst hq
      rw [h] at hg
      cases hg
      simp at hg'
      rw [← hg']
    · simp [hq] at hg'
      rw [hg] at hg'
      cases hg'
      rfl

theorem cacheSave_warm_witness :
    ((fun q => if q = "cp" then some (⟨[1, 2], 3⟩ : DiskFile) else none) "cp"
      = some (⟨[1, 2], 3⟩ : DiskFile)) ∧
    (∃ disk', cacheSave (fun q => if q = "cp" then some (⟨[1, 2], 3⟩ : DiskFile) else none)
        "cp" false (.content [9]) 10 2 = .ok (disk', 2, false) ∧
      disk' "cp" = some ⟨[1, 2], 10⟩ ∧
      (∀ q, q ≠ "cp" → disk' q
        = (fun q => if q = "cp" then some (⟨[1, 2], 3⟩ : DiskFile) else none) q) ∧
      (∀ q g g', (fun q => if q = "cp" then some (⟨[1, 2], 3⟩ : DiskFile) else none) q = some g →
        disk' q = some g' → g'.content = g.content)) :=
  ⟨by simp, cacheSave_warm _ "cp" false (.content [9]) 10 2 ⟨[1, 2], 3⟩ (by simp)⟩

end Mskvfs
